import Mathlib

/-!
Verification of the directory metadata gatherer (`GenerateJsonMetaData` in
`snipets/side_scripts/dir_to_json/dir_to_json.py`).

The Python class scans the direct children of a directory, classifies each
child by filesystem kind and extension, builds a list of four-key JSON
records, and writes that list as two JSON texts (pretty-printed and
minified).  We embed the data model and the operations shallowly:

* characters and strings are Lean `Char`/`List Char`/`String`;
* JSON values are the inductive `JVal` (floats are outside the model: the
  entry records built by the gatherer only ever contain strings and arrays
  of strings, and the abstract parse hook below is free to return any
  `JVal`);
* the filesystem as seen by one scan is a list of named children, each a
  directory, a regular file (with the outcome of reading it), or anything
  else;
* `json.loads` is an abstract hook `String → Option JVal` (`none` models a
  parse failure) — the gatherer only ever applies it to the pathname string
  it constructs, which is exactly what claim C9 is about;
* the fallible parts (`os.listdir`, reading a `.txt` child, the two file
  writes, `os.chdir`) are modelled with `Except`/`Bool` outcomes packaged in
  a `World`, and `call` is the embedding of `__call__`.
-/

namespace DirToJson

/-! ### Characters used by the serializers -/

def quoteChar : Char := Char.ofNat 34

def backslashChar : Char := Char.ofNat 92

def spaceChar : Char := Char.ofNat 32

def newlineChar : Char := Char.ofNat 10

def tabChar : Char := Char.ofNat 9

def crChar : Char := Char.ofNat 13

/-! ### Python string/path primitives -/

/-- Model of Python `str.endswith`: the suffix test on the character lists. -/
def pyEndswith (s suf : String) : Bool := suf.data.isSuffixOf s.data

/-- Model of `os.path.basename` (POSIX): everything after the last slash. -/
def basename (p : String) : String :=
  String.mk ((p.data.reverse.takeWhile (fun c => c ≠ '/')).reverse)

/-- Model of `os.path.join` (POSIX, two arguments): an absolute second
component replaces the first; otherwise the parts are glued with a slash
unless the first already ends in one (or is empty). -/
def pathJoin (a b : String) : String :=
  if b.data.head? = some '/' then b
  else if a = "" ∨ a.data.getLast? = some '/' then a ++ b
  else a ++ "/" ++ b

/-- Model of Python `str.split` with the one-character separator `"\n"`:
splits into segments, keeping empty segments, never returning `[]`. -/
def splitNl : List Char → List (List Char)
  | [] => [[]]
  | c :: cs =>
    if c = newlineChar then [] :: splitNl cs
    else
      match splitNl cs with
      | [] => [[c]]
      | h :: t => (c :: h) :: t

/-! ### JSON values -/

/-- JSON values (floats excluded from the model). -/
inductive JVal where
  | null : JVal
  | bool (b : Bool) : JVal
  | num (n : Int) : JVal
  | str (s : String) : JVal
  | arr (xs : List JVal) : JVal
  | obj (kvs : List (String × JVal)) : JVal

/-! ### The four record keys and the two reserved output names,
exactly as assigned in `GenerateJsonMetaData.__init__`. -/

def key1 : String := "fileName"

def key2 : String := "fileContent"

def key3 : String := "fileType"

def key4 : String := "fileParentDirectory"

def json_name : String := "files.json"

def minified_json_name : String := "files.min.json"

/-- The skip test of the scan loop: is this child one of the two reserved
output filenames? -/
def isReservedName (s : String) : Bool :=
  s == json_name || s == minified_json_name

/-! ### Filesystem model -/

/-- What one directory child is, as far as the scan can observe:
`dir` answers `os.path.isdir`, `file` answers `os.path.isfile` and carries
the outcome of opening and reading it (`.error` models an I/O exception),
`other` is everything else (broken symlink, device file, ...). -/
inductive FSNode where
  | dir : FSNode
  | file (readResult : Except String String) : FSNode
  | other : FSNode

/-- A directory child: its name as produced by `os.listdir`, and its node. -/
structure FSChild where
  name : String
  node : FSNode

/-- One record of the gathered list: an association list in insertion
order, mirroring the successive key assignments in the Python dict. -/
abbrev Entry := List (String × JVal)

/-- The body of the `for` loop of `gather_content` for one non-reserved
child: builds the four-key record, or raises (the `.txt` read is the only
raising operation; the JSON-parse attempt is wrapped in its own
`try/except`).  `loads` is the `json.loads` hook; note that the code
applies it to `os.path.join(cwd, i)` — the pathname — not to the file's
content. -/
def classifyChild (loads : String → Option JVal) (cwd : String) (c : FSChild) :
    Except String Entry :=
  match c.node with
  | .dir =>
    .ok [(key1, .str c.name), (key4, .str (basename cwd)),
         (key2, .str ""), (key3, .str "dir")]
  | .file readResult =>
    if pyEndswith c.name ".txt" then
      match readResult with
      | .ok content =>
        .ok [(key1, .str c.name), (key4, .str (basename cwd)),
             (key2, .arr ((splitNl content.data).map (fun l => .str (String.mk l)))),
             (key3, .str "file")]
      | .error e => .error e
    else if pyEndswith c.name ".json" || pyEndswith c.name ".jsonc" then
      match loads (pathJoin cwd c.name) with
      | some v =>
        .ok [(key1, .str c.name), (key4, .str (basename cwd)),
             (key2, v), (key3, .str "json")]
      | none =>
        .ok [(key1, .str c.name), (key4, .str (basename cwd)),
             (key2, .str (pathJoin (basename cwd) c.name)), (key3, .str "path")]
    else
      .ok [(key1, .str c.name), (key4, .str (basename cwd)),
           (key2, .str (pathJoin (basename cwd) c.name)), (key3, .str "path")]
  | .other =>
    .ok [(key1, .str c.name), (key4, .str (basename cwd)),
         (key2, .str ""), (key3, .str "Unknown")]

/-- `GenerateJsonMetaData.gather_content`: walk the listing in order, skip
the two reserved output names, classify every other child; the first
exception aborts the walk and propagates. -/
def gather_content (loads : String → Option JVal) (cwd : String) :
    List FSChild → Except String (List Entry)
  | [] => .ok []
  | c :: rest =>
    if c.name = json_name ∨ c.name = minified_json_name then
      gather_content loads cwd rest
    else
      match classifyChild loads cwd c with
      | .error e => .error e
      | .ok ent =>
        match gather_content loads cwd rest with
        | .error e => .error e
        | .ok es => .ok (ent :: es)

/-! ### The two `json.dumps` configurations

`dump_json` uses `indent=4, separators=(" ,", ": "), sort_keys=True,
ensure_ascii=True`; `dump_minified_json` uses `indent=None,
separators=(",", ":"), sort_keys=True, ensure_ascii=True`.  We factor
`sort_keys` out as a normalization pass `sortJ` (sorting every object's
keys at every depth, stably, by the key string), after which each encoder
is a plain structural walk.  Strings are escaped as `json.dumps` does with
`ensure_ascii=True`: quote, backslash and the short control escapes, then
`\uXXXX` (lowercase hex, surrogate pairs beyond the BMP) for everything
outside the printable ASCII range. -/

def hexDigits : List Char := "0123456789abcdef".data

def hexDigit (n : Nat) : Char := hexDigits.getD n '0'

def hex4 (n : Nat) : List Char :=
  [hexDigit (n / 4096 % 16), hexDigit (n / 256 % 16),
   hexDigit (n / 16 % 16), hexDigit (n % 16)]

/-- The `json.dumps` (`ensure_ascii=True`) encoding of one character. -/
def escapeChar (c : Char) : List Char :=
  if c = quoteChar then [backslashChar, quoteChar]
  else if c = backslashChar then [backslashChar, backslashChar]
  else if c = newlineChar then [backslashChar, 'n']
  else if c = crChar then [backslashChar, 'r']
  else if c = tabChar then [backslashChar, 't']
  else if c = Char.ofNat 8 then [backslashChar, 'b']
  else if c = Char.ofNat 12 then [backslashChar, 'f']
  else if c.toNat < 32 then backslashChar :: 'u' :: hex4 c.toNat
  else if c.toNat < 127 then [c]
  else if c.toNat < 65536 then backslashChar :: 'u' :: hex4 c.toNat
  else
    (backslashChar :: 'u' :: hex4 (55296 + (c.toNat - 65536) / 1024)) ++
      (backslashChar :: 'u' :: hex4 (56320 + (c.toNat - 65536) % 1024))

/-- A JSON string literal: quote, escaped characters, quote. -/
def strLit (s : String) : List Char :=
  quoteChar :: (s.data.map escapeChar).flatten ++ [quoteChar]

/-- Decimal digits of a positive number, most significant first. -/
def natDigitsAux : Nat → List Char → List Char
  | 0, acc => acc
  | n + 1, acc =>
    natDigitsAux ((n + 1) / 10) (hexDigit ((n + 1) % 10) :: acc)
decreasing_by exact Nat.div_lt_self (Nat.succ_pos n) (by omega)

/-- Decimal rendering of a natural number, as Python `str`. -/
def natRepr (n : Nat) : List Char :=
  if n = 0 then ['0'] else natDigitsAux n []

/-- Decimal rendering of an integer, as Python `str`. -/
def intRepr : Int → List Char
  | .ofNat n => natRepr n
  | .negSucc n => '-' :: natRepr (n + 1)

/-- Stable insertion of a key/value pair into a key-sorted list. -/
def insertKV (p : String × JVal) : List (String × JVal) → List (String × JVal)
  | [] => [p]
  | q :: qs => if p.1 ≤ q.1 then p :: q :: qs else q :: insertKV p qs

/-- Stable sort of an association list by key (Python `sorted` on items by
key, which is what `sort_keys=True` performs per object). -/
def sortKVs : List (String × JVal) → List (String × JVal)
  | [] => []
  | p :: ps => insertKV p (sortKVs ps)

mutual

/-- `sort_keys=True` as a normalization pass: sort every object, at every
depth, by key. -/
def sortJ : JVal → JVal
  | .null => .null
  | .bool b => .bool b
  | .num n => .num n
  | .str s => .str s
  | .arr xs => .arr (sortJList xs)
  | .obj kvs => .obj (sortKVs (sortJKVs kvs))

def sortJList : List JVal → List JVal
  | [] => []
  | v :: vs => sortJ v :: sortJList vs

def sortJKVs : List (String × JVal) → List (String × JVal)
  | [] => []
  | (k, v) :: ps => (k, sortJ v) :: sortJKVs ps

end

mutual

/-- The minified encoder: `json.dumps(..., indent=None,
separators=(",", ":"))` on an already key-sorted value. -/
def serM : JVal → List Char
  | .null => "null".data
  | .bool b => if b then "true".data else "false".data
  | .num n => intRepr n
  | .str s => strLit s
  | .arr xs => '[' :: serMList xs ++ [']']
  | .obj kvs => Char.ofNat 123 :: serMKVs kvs ++ [Char.ofNat 125]

def serMList : List JVal → List Char
  | [] => []
  | [v] => serM v
  | v :: w :: vs => serM v ++ ',' :: serMList (w :: vs)

def serMKVs : List (String × JVal) → List Char
  | [] => []
  | [(k, v)] => strLit k ++ ':' :: serM v
  | (k, v) :: q :: ps => strLit k ++ ':' :: serM v ++ ',' :: serMKVs (q :: ps)

end

/-- The indentation prefix at nesting level `lvl` (`indent=4`). -/
def indentAt (lvl : Nat) : List Char := List.replicate (4 * lvl) spaceChar

mutual

/-- The pretty encoder: `json.dumps(..., indent=4, separators=(" ,", ": "))`
on an already key-sorted value.  Non-empty containers put every element on
its own line at the next indentation level; the item separator is the
non-standard `" ,"`; the key/value separator is `": "`; empty containers
print without inner whitespace. -/
def serP (lvl : Nat) : JVal → List Char
  | .null => "null".data
  | .bool b => if b then "true".data else "false".data
  | .num n => intRepr n
  | .str s => strLit s
  | .arr [] => "[]".data
  | .arr (v :: vs) =>
    '[' :: serPList lvl (v :: vs) ++ newlineChar :: indentAt lvl ++ [']']
  | .obj [] => (Char.ofNat 123) :: [Char.ofNat 125]
  | .obj (p :: ps) =>
    Char.ofNat 123 :: serPKVs lvl (p :: ps) ++
      newlineChar :: indentAt lvl ++ [Char.ofNat 125]

def serPList (lvl : Nat) : List JVal → List Char
  | [] => []
  | [v] => newlineChar :: indentAt (lvl + 1) ++ serP (lvl + 1) v
  | v :: w :: vs =>
    newlineChar :: indentAt (lvl + 1) ++ serP (lvl + 1) v ++
      spaceChar :: ',' :: serPList lvl (w :: vs)

def serPKVs (lvl : Nat) : List (String × JVal) → List Char
  | [] => []
  | [(k, v)] =>
    newlineChar :: indentAt (lvl + 1) ++ strLit k ++
      ':' :: spaceChar :: serP (lvl + 1) v
  | (k, v) :: q :: ps =>
    newlineChar :: indentAt (lvl + 1) ++ strLit k ++
      ':' :: spaceChar :: serP (lvl + 1) v ++
      spaceChar :: ',' :: serPKVs lvl (q :: ps)

end

/-- The gathered list as one JSON value: an array of objects. -/
def entriesToJVal (entries : List Entry) : JVal :=
  .arr (entries.map .obj)

/-- `GenerateJsonMetaData.dump_json`: the text written to `files.json`. -/
def dump_json (entries : List Entry) : String :=
  String.mk (serP 0 (sortJ (entriesToJVal entries)))

/-- `GenerateJsonMetaData.dump_minified_json`: the text written to
`files.min.json`. -/
def dump_minified_json (entries : List Entry) : String :=
  String.mk (serM (sortJ (entriesToJVal entries)))

/-! ### Whitespace-insensitive comparison of JSON texts

JSON parsing discards whitespace between tokens and keeps it inside string
literals.  `stripJsonWS` erases exactly the insignificant whitespace: it
walks the text with the JSON string-lexing automaton (outside/inside a
literal, plus a just-after-backslash flag) and drops whitespace characters
met outside literals.  Two JSON texts with equal `stripJsonWS` images have
identical token streams, hence parse to the same value. -/

def stripAux : Bool → Bool → List Char → List Char
  | _, _, [] => []
  | false, _, c :: cs =>
    if c = spaceChar ∨ c = newlineChar ∨ c = tabChar ∨ c = crChar then
      stripAux false false cs
    else if c = quoteChar then c :: stripAux true false cs
    else c :: stripAux false false cs
  | true, true, c :: cs => c :: stripAux true false cs
  | true, false, c :: cs =>
    if c = backslashChar then c :: stripAux true true cs
    else if c = quoteChar then c :: stripAux false false cs
    else c :: stripAux true false cs

def stripJsonWS (s : String) : String :=
  String.mk (stripAux false false s.data)

/-! ### The call boundary (`__call__`)

`__call__` remembers the current directory, `chdir`s into the argument,
and runs gather + the two dumps inside one `try` whose `except Exception`
catches everything and only prints; the `finally` restores the remembered
directory.  Only the initial `chdir` sits before the `try`: its failure is
the one way an exception escapes (and then the directory was never
changed).  A `World` packages the outcomes of every effectful primitive;
`CallResult` records what a caller can observe. -/

structure World where
  loads : String → Option JVal
  startCwd : String
  chdirOk : Bool
  listing : Except String (List FSChild)
  dumpOk : Bool
  dumpMinOk : Bool

structure CallResult where
  endCwd : String
  written : List (String × String)
  raised : Bool

/-- The scan as run inside the `try`: `os.listdir` then `gather_content`. -/
def gatherResult (w : World) (cwd : String) : Except String (List Entry) :=
  match w.listing with
  | .error e => .error e
  | .ok children => gather_content w.loads cwd children

/-- `GenerateJsonMetaData.__call__` on a world: the observable outcome. -/
def call (w : World) (cwd : String) : CallResult :=
  if w.chdirOk = false then
    { endCwd := w.startCwd, written := [], raised := true }
  else
    match gatherResult w cwd with
    | .error _ => { endCwd := w.startCwd, written := [], raised := false }
    | .ok es =>
      if w.dumpOk = false then
        { endCwd := w.startCwd, written := [], raised := false }
      else if w.dumpMinOk = false then
        { endCwd := w.startCwd, written := [(json_name, dump_json es)],
          raised := false }
      else
        { endCwd := w.startCwd,
          written := [(json_name, dump_json es),
                      (minified_json_name, dump_minified_json es)],
          raised := false }

/-- The statement of the C6 induction: at every level and in every
context, stripping the pretty rendering of a value yields its minified
rendering (and hands the rest of the text back to the automaton in the
outside-literal state). -/
def StripOK (v : JVal) : Prop :=
  ∀ (lvl : Nat) (rest : List Char),
    stripAux false false (serP lvl v ++ rest) =
      serM v ++ stripAux false false rest

/-- The companion statement: the minified rendering contains no
insignificant whitespace at all, so the automaton keeps it verbatim. -/
def StripOKMin (v : JVal) : Prop :=
  ∀ rest : List Char,
    stripAux false false (serM v ++ rest) =
      serM v ++ stripAux false false rest

/-! ### Character classes for the stripping automaton -/

/-- A character that, outside a string literal, is kept verbatim and keeps
the automaton outside a literal. -/
abbrev PlainOut (c : Char) : Prop :=
  c ≠ spaceChar ∧ c ≠ newlineChar ∧ c ≠ tabChar ∧ c ≠ crChar ∧ c ≠ quoteChar

/-- A character that, inside a string literal (not after a backslash), is
kept verbatim and keeps the automaton inside the literal. -/
abbrev PlainIn (c : Char) : Prop :=
  c ≠ backslashChar ∧ c ≠ quoteChar

theorem stripAux_nil (b e : Bool) : stripAux b e [] = [] := by
  cases b <;> cases e <;> rfl

theorem stripAux_out_plain (c : Char) (h : PlainOut c) (cs : List Char) :
    stripAux false false (c :: cs) = c :: stripAux false false cs := by
  obtain ⟨h1, h2, h3, h4, h5⟩ := h
  show (if c = spaceChar ∨ c = newlineChar ∨ c = tabChar ∨ c = crChar then
      stripAux false false cs
    else if c = quoteChar then c :: stripAux true false cs
    else c :: stripAux false false cs) = c :: stripAux false false cs
  rw [if_neg (by tauto), if_neg h5]

theorem stripAux_out_ws (c : Char) (h : c = spaceChar ∨ c = newlineChar)
    (cs : List Char) :
    stripAux false false (c :: cs) = stripAux false false cs := by
  show (if c = spaceChar ∨ c = newlineChar ∨ c = tabChar ∨ c = crChar then
      stripAux false false cs
    else if c = quoteChar then c :: stripAux true false cs
    else c :: stripAux false false cs) = stripAux false false cs
  rw [if_pos (by tauto)]

theorem stripAux_out_quote (cs : List Char) :
    stripAux false false (quoteChar :: cs) =
      quoteChar :: stripAux true false cs := by
  show (if quoteChar = spaceChar ∨ quoteChar = newlineChar ∨
        quoteChar = tabChar ∨ quoteChar = crChar then
      stripAux false false cs
    else if quoteChar = quoteChar then quoteChar :: stripAux true false cs
    else quoteChar :: stripAux false false cs) = _
  rw [if_neg (by decide), if_pos rfl]

theorem stripAux_in_plain (c : Char) (h : PlainIn c) (cs : List Char) :
    stripAux true false (c :: cs) = c :: stripAux true false cs := by
  obtain ⟨h1, h2⟩ := h
  show (if c = backslashChar then c :: stripAux true true cs
    else if c = quoteChar then c :: stripAux false false cs
    else c :: stripAux true false cs) = _
  rw [if_neg h1, if_neg h2]

theorem stripAux_in_backslash (cs : List Char) :
    stripAux true false (backslashChar :: cs) =
      backslashChar :: stripAux true true cs := by
  show (if backslashChar = backslashChar then
      backslashChar :: stripAux true true cs
    else if backslashChar = quoteChar then
      backslashChar :: stripAux false false cs
    else backslashChar :: stripAux true false cs) = _
  rw [if_pos rfl]

theorem stripAux_in_escaped (c : Char) (cs : List Char) :
    stripAux true true (c :: cs) = c :: stripAux true false cs := rfl

theorem stripAux_in_quote (cs : List Char) :
    stripAux true false (quoteChar :: cs) =
      quoteChar :: stripAux false false cs := by
  show (if quoteChar = backslashChar then
      quoteChar :: stripAux true true cs
    else if quoteChar = quoteChar then quoteChar :: stripAux false false cs
    else quoteChar :: stripAux true false cs) = _
  rw [if_neg (by decide), if_pos rfl]

/-! ### Stripping over blocks of characters -/

theorem stripAux_out_plain_append (l : List Char)
    (h : ∀ c ∈ l, PlainOut c) (rest : List Char) :
    stripAux false false (l ++ rest) = l ++ stripAux false false rest := by
  induction l with
  | nil => rfl
  | cons c cs ih =>
    rw [List.cons_append, stripAux_out_plain c (h c (by simp)),
      ih (fun x hx => h x (by simp [hx])), List.cons_append]

theorem stripAux_out_ws_append (l : List Char)
    (h : ∀ c ∈ l, c = spaceChar ∨ c = newlineChar) (rest : List Char) :
    stripAux false false (l ++ rest) = stripAux false false rest := by
  induction l with
  | nil => rfl
  | cons c cs ih =>
    rw [List.cons_append, stripAux_out_ws c (h c (by simp)),
      ih (fun x hx => h x (by simp [hx]))]

theorem stripAux_indent (lvl : Nat) (rest : List Char) :
    stripAux false false (indentAt lvl ++ rest) = stripAux false false rest := by
  refine stripAux_out_ws_append _ (fun c hc => ?_) rest
  rw [indentAt] at hc
  exact Or.inl (List.eq_of_mem_replicate hc)

theorem stripAux_in_plain_append (l : List Char)
    (h : ∀ c ∈ l, PlainIn c) (rest : List Char) :
    stripAux true false (l ++ rest) = l ++ stripAux true false rest := by
  induction l with
  | nil => rfl
  | cons c cs ih =>
    rw [List.cons_append, stripAux_in_plain c (h c (by simp)),
      ih (fun x hx => h x (by simp [hx])), List.cons_append]

theorem getD_mem_or (l : List Char) (n : Nat) (d : Char) :
    l.getD n d ∈ l ∨ l.getD n d = d := by
  induction l generalizing n with
  | nil => right; rfl
  | cons c cs ih =>
    cases n with
    | zero => rw [List.getD_cons_zero]; left; exact List.mem_cons_self c cs
    | succ m =>
      rw [List.getD_cons_succ]
      rcases ih m with h | h
      · left; exact List.mem_cons_of_mem _ h
      · right; exact h

theorem hexDigit_mem (n : Nat) : hexDigit n ∈ hexDigits := by
  rcases getD_mem_or hexDigits n '0' with h | h
  · exact h
  · rw [hexDigit, h]; decide

theorem hexDigits_plainIn : ∀ c ∈ hexDigits, PlainIn c := by decide

theorem hexDigits_plainOut : ∀ c ∈ hexDigits, PlainOut c := by decide

theorem hexDigit_plainIn (n : Nat) : PlainIn (hexDigit n) :=
  hexDigits_plainIn _ (hexDigit_mem n)

theorem hexDigit_plainOut (n : Nat) : PlainOut (hexDigit n) :=
  hexDigits_plainOut _ (hexDigit_mem n)

theorem hex4_plainIn (n : Nat) : ∀ c ∈ hex4 n, PlainIn c := by
  intro c hc
  rw [hex4] at hc
  simp only [List.mem_cons, List.not_mem_nil, or_false] at hc
  rcases hc with h | h | h | h <;> rw [h] <;> exact hexDigit_plainIn _

/-- Inside a string literal, an escaped character block is kept verbatim
and leaves the automaton inside the literal. -/
theorem stripAux_in_escapeChar (c : Char) (rest : List Char) :
    stripAux true false (escapeChar c ++ rest) =
      escapeChar c ++ stripAux true false rest := by
  have pair : ∀ (x : Char) (r : List Char),
      stripAux true false (backslashChar :: x :: r) =
        backslashChar :: x :: stripAux true false r := by
    intro x r
    rw [stripAux_in_backslash, stripAux_in_escaped]
  have hexblock : ∀ (m : Nat) (r : List Char),
      stripAux true false ((backslashChar :: 'u' :: hex4 m) ++ r) =
        (backslashChar :: 'u' :: hex4 m) ++ stripAux true false r := by
    intro m r
    rw [List.cons_append, List.cons_append, pair]
    rw [stripAux_in_plain_append (hex4 m) (hex4_plainIn m) r,
      List.cons_append, List.cons_append]
  rw [escapeChar]
  split
  · exact pair _ _
  split
  · exact pair _ _
  split
  · exact pair _ _
  split
  · exact pair _ _
  split
  · exact pair _ _
  split
  · exact pair _ _
  split
  · exact pair _ _
  split
  · exact hexblock _ _
  split
  · rename_i h1 h2 h3 h4 h5 h6 h7 h8 h9
    exact stripAux_in_plain_append [c] (by
      intro x hx
      simp only [List.mem_singleton] at hx
      subst hx
      exact ⟨h2, h1⟩) rest
  split
  · exact hexblock _ _
  · rw [List.append_assoc, hexblock, hexblock, List.append_assoc]

/-- Inside a string literal, the full escaped body of a string is kept
verbatim and leaves the automaton inside the literal. -/
theorem stripAux_in_body (l : List Char) (rest : List Char) :
    stripAux true false ((l.map escapeChar).flatten ++ rest) =
      (l.map escapeChar).flatten ++ stripAux true false rest := by
  induction l with
  | nil => rfl
  | cons c cs ih =>
    simp only [List.map_cons, List.flatten_cons, List.append_assoc]
    rw [stripAux_in_escapeChar, ih]

/-- A string literal is kept verbatim by the stripping automaton, which
returns outside literals afterwards. -/
theorem stripAux_strLit (s : String) (rest : List Char) :
    stripAux false false (strLit s ++ rest) =
      strLit s ++ stripAux false false rest := by
  rw [strLit]
  simp only [List.cons_append, List.append_assoc, List.singleton_append]
  rw [stripAux_out_quote, stripAux_in_body, stripAux_in_quote]
  simp

theorem natDigitsAux_mem (n : Nat) (acc : List Char) :
    ∀ c ∈ natDigitsAux n acc, c ∈ acc ∨ c ∈ hexDigits := by
  induction n, acc using natDigitsAux.induct with
  | case1 acc =>
    intro c hc
    rw [natDigitsAux] at hc
    exact Or.inl hc
  | case2 m acc ih =>
    intro c hc
    rw [natDigitsAux] at hc
    rcases ih c hc with h | h
    · simp only [List.mem_cons] at h
      rcases h with h | h
      · right; rw [h]; exact hexDigit_mem _
      · left; exact h
    · right; exact h

theorem natRepr_mem (n : Nat) : ∀ c ∈ natRepr n, c ∈ hexDigits := by
  intro c hc
  rw [natRepr] at hc
  split at hc
  · simp only [List.mem_singleton] at hc
    rw [hc]; decide
  · rcases natDigitsAux_mem n [] c hc with h | h
    · simp at h
    · exact h

theorem intRepr_plainOut (n : Int) : ∀ c ∈ intRepr n, PlainOut c := by
  intro c hc
  have hdig := hexDigits_plainOut
  cases n with
  | ofNat m => exact hdig c (natRepr_mem m c hc)
  | negSucc m =>
    rw [intRepr] at hc
    simp only [List.mem_cons] at hc
    rcases hc with h | h
    · rw [h]; decide
    · exact hdig c (natRepr_mem (m + 1) c h)

theorem stripAux_intRepr (n : Int) (rest : List Char) :
    stripAux false false (intRepr n ++ rest) =
      intRepr n ++ stripAux false false rest :=
  stripAux_out_plain_append _ (intRepr_plainOut n) rest

/-! ### Structural induction over `JVal` with nested-list hypotheses -/

theorem JVal.strongInd (P : JVal → Prop)
    (hnull : P .null) (hbool : ∀ b, P (.bool b)) (hnum : ∀ n, P (.num n))
    (hstr : ∀ s, P (.str s))
    (harr : ∀ xs, (∀ v ∈ xs, P v) → P (.arr xs))
    (hobj : ∀ kvs, (∀ p ∈ kvs, P p.2) → P (.obj kvs)) :
    ∀ v, P v
  | .null => hnull
  | .bool b => hbool b
  | .num n => hnum n
  | .str s => hstr s
  | .arr xs =>
    harr xs (fun v hv =>
      JVal.strongInd P hnull hbool hnum hstr harr hobj v)
  | .obj kvs =>
    hobj kvs (fun p hp =>
      JVal.strongInd P hnull hbool hnum hstr harr hobj p.2)
termination_by v => sizeOf v
decreasing_by
  · have h := List.sizeOf_lt_of_mem hv
    simp only [JVal.arr.sizeOf_spec]
    omega
  · have h := List.sizeOf_lt_of_mem hp
    obtain ⟨k, x⟩ := p
    simp only [JVal.obj.sizeOf_spec, Prod.mk.sizeOf_spec] at *
    omega

/-! ### Stripping the pretty rendering yields the minified rendering -/

theorem stripAux_serPList (l : List JVal) (hl : ∀ u ∈ l, StripOK u)
    (lvl : Nat) (rest : List Char) :
    stripAux false false
        (serPList lvl l ++ ((newlineChar :: indentAt lvl) ++ rest)) =
      serMList l ++ stripAux false false rest := by
  induction l with
  | nil =>
    rw [serPList, serMList]
    simp only [List.nil_append, List.cons_append]
    rw [stripAux_out_ws newlineChar (Or.inr rfl), stripAux_indent]
  | cons v tail ih =>
    cases tail with
    | nil =>
      rw [serPList, serMList]
      simp only [List.cons_append, List.append_assoc]
      rw [stripAux_out_ws newlineChar (Or.inr rfl), stripAux_indent,
        hl v (List.mem_cons_self v []) (lvl + 1),
        stripAux_out_ws newlineChar (Or.inr rfl), stripAux_indent]
    | cons w vs =>
      have ih' := ih (fun u hu => hl u (List.mem_cons_of_mem v hu))
      simp only [List.cons_append, List.append_assoc] at ih'
      rw [serPList, serMList]
      simp only [List.cons_append, List.append_assoc]
      rw [stripAux_out_ws newlineChar (Or.inr rfl), stripAux_indent,
        hl v (List.mem_cons_self v (w :: vs)) (lvl + 1),
        stripAux_out_ws spaceChar (Or.inl rfl),
        stripAux_out_plain ',' (by decide), ih']

theorem stripAux_serPKVs (l : List (String × JVal))
    (hl : ∀ p ∈ l, StripOK p.2) (lvl : Nat) (rest : List Char) :
    stripAux false false
        (serPKVs lvl l ++ ((newlineChar :: indentAt lvl) ++ rest)) =
      serMKVs l ++ stripAux false false rest := by
  induction l with
  | nil =>
    rw [serPKVs, serMKVs]
    simp only [List.nil_append, List.cons_append]
    rw [stripAux_out_ws newlineChar (Or.inr rfl), stripAux_indent]
  | cons p tail ih =>
    obtain ⟨k, v⟩ := p
    cases tail with
    | nil =>
      rw [serPKVs, serMKVs]
      simp only [List.cons_append, List.append_assoc]
      rw [stripAux_out_ws newlineChar (Or.inr rfl), stripAux_indent,
        stripAux_strLit,
        stripAux_out_plain ':' (by decide),
        stripAux_out_ws spaceChar (Or.inl rfl),
        hl (k, v) (List.mem_cons_self (k, v) []) (lvl + 1),
        stripAux_out_ws newlineChar (Or.inr rfl), stripAux_indent]
    | cons q ps =>
      have hv : StripOK v := hl (k, v) (List.mem_cons_self (k, v) (q :: ps))
      have ih' := ih (fun u hu => hl u (List.mem_cons_of_mem (k, v) hu))
      simp only [List.cons_append, List.append_assoc] at ih'
      rw [serPKVs, serMKVs]
      simp only [List.cons_append, List.append_assoc]
      rw [stripAux_out_ws newlineChar (Or.inr rfl), stripAux_indent,
        stripAux_strLit,
        stripAux_out_plain ':' (by decide),
        stripAux_out_ws spaceChar (Or.inl rfl),
        hv (lvl + 1),
        stripAux_out_ws spaceChar (Or.inl rfl),
        stripAux_out_plain ',' (by decide), ih']

/-- Every JSON value satisfies `StripOK`: erasing the insignificant
whitespace from its pretty rendering gives exactly its minified
rendering. -/
theorem stripOK_of_jval (v : JVal) : StripOK v := by
  induction v using JVal.strongInd with
  | hnull =>
    intro lvl rest
    rw [serP, serM]
    exact stripAux_out_plain_append _ (by decide) rest
  | hbool b =>
    intro lvl rest
    cases b <;>
      · rw [serP, serM]
        simp only [Bool.false_eq_true, if_false, if_true, ite_true, ite_false]
        exact stripAux_out_plain_append _ (by decide) rest
  | hnum n =>
    intro lvl rest
    rw [serP, serM]
    exact stripAux_intRepr n rest
  | hstr s =>
    intro lvl rest
    rw [serP, serM]
    exact stripAux_strLit s rest
  | harr xs h =>
    intro lvl rest
    cases xs with
    | nil =>
      rw [serP, serM, serMList]
      exact stripAux_out_plain_append _ (by decide) rest
    | cons v vs =>
      rw [serP, serM]
      simp only [List.cons_append, List.append_assoc, List.nil_append]
      rw [stripAux_out_plain '[' (by decide)]
      have := stripAux_serPList (v :: vs) h lvl (']' :: rest)
      simp only [List.cons_append, List.append_assoc, List.nil_append] at this
      rw [this, stripAux_out_plain ']' (by decide)]
  | hobj kvs h =>
    intro lvl rest
    cases kvs with
    | nil =>
      rw [serP, serM, serMKVs]
      exact stripAux_out_plain_append _ (by decide) rest
    | cons p ps =>
      rw [serP, serM]
      simp only [List.cons_append, List.append_assoc, List.nil_append]
      rw [stripAux_out_plain (Char.ofNat 123) (by decide)]
      have := stripAux_serPKVs (p :: ps) h lvl (Char.ofNat 125 :: rest)
      simp only [List.cons_append, List.append_assoc, List.nil_append] at this
      rw [this, stripAux_out_plain (Char.ofNat 125) (by decide)]

theorem stripAux_serMList (l : List JVal) (hl : ∀ u ∈ l, StripOKMin u)
    (rest : List Char) :
    stripAux false false (serMList l ++ rest) =
      serMList l ++ stripAux false false rest := by
  induction l with
  | nil => rfl
  | cons v tail ih =>
    cases tail with
    | nil => exact hl v (List.mem_cons_self v []) rest
    | cons w vs =>
      have ih' := ih (fun u hu => hl u (List.mem_cons_of_mem v hu))
      rw [serMList]
      simp only [List.cons_append, List.append_assoc]
      rw [hl v (List.mem_cons_self v (w :: vs)),
        stripAux_out_plain ',' (by decide), ih']

theorem stripAux_serMKVs (l : List (String × JVal))
    (hl : ∀ p ∈ l, StripOKMin p.2) (rest : List Char) :
    stripAux false false (serMKVs l ++ rest) =
      serMKVs l ++ stripAux false false rest := by
  induction l with
  | nil => rfl
  | cons p tail ih =>
    obtain ⟨k, v⟩ := p
    cases tail with
    | nil =>
      rw [serMKVs]
      simp only [List.cons_append, List.append_assoc]
      rw [stripAux_strLit, stripAux_out_plain ':' (by decide),
        hl (k, v) (List.mem_cons_self (k, v) [])]
    | cons q ps =>
      have hv : StripOKMin v := hl (k, v) (List.mem_cons_self (k, v) (q :: ps))
      have ih' := ih (fun u hu => hl u (List.mem_cons_of_mem (k, v) hu))
      rw [serMKVs]
      simp only [List.cons_append, List.append_assoc]
      rw [stripAux_strLit, stripAux_out_plain ':' (by decide), hv,
        stripAux_out_plain ',' (by decide), ih']

/-- The minified rendering of any JSON value is kept verbatim by the
whitespace-erasing automaton. -/
theorem stripOKMin_of_jval (v : JVal) : StripOKMin v := by
  induction v using JVal.strongInd with
  | hnull =>
    intro rest
    rw [serM]
    exact stripAux_out_plain_append _ (by decide) rest
  | hbool b =>
    intro rest
    cases b <;>
      · rw [serM]
        simp only [Bool.false_eq_true, if_false, if_true, ite_true, ite_false]
        exact stripAux_out_plain_append _ (by decide) rest
  | hnum n =>
    intro rest
    rw [serM]
    exact stripAux_intRepr n rest
  | hstr s =>
    intro rest
    rw [serM]
    exact stripAux_strLit s rest
  | harr xs h =>
    intro rest
    rw [serM]
    simp only [List.cons_append, List.append_assoc, List.singleton_append]
    rw [stripAux_out_plain '[' (by decide), stripAux_serMList xs h,
      stripAux_out_plain ']' (by decide)]
    simp
  | hobj kvs h =>
    intro rest
    rw [serM]
    simp only [List.cons_append, List.append_assoc, List.singleton_append]
    rw [stripAux_out_plain (Char.ofNat 123) (by decide),
      stripAux_serMKVs kvs h,
      stripAux_out_plain (Char.ofNat 125) (by decide)]
    simp

/-! ### Extension tests are mutually exclusive where the branch order
could matter -/

theorem pyEndswith_getLast (s suf : String) (h : pyEndswith s suf = true)
    (hne : suf.data ≠ []) : s.data.getLast? = suf.data.getLast? := by
  rw [pyEndswith, List.isSuffixOf_iff_suffix] at h
  obtain ⟨t, ht⟩ := h
  rw [← ht]
  exact List.getLast?_append_of_ne_nil t hne

theorem not_endswith_txt_of_json (s : String)
    (h : pyEndswith s ".json" = true ∨ pyEndswith s ".jsonc" = true) :
    pyEndswith s ".txt" = false := by
  by_contra hc
  rw [Bool.not_eq_false] at hc
  have htxt := pyEndswith_getLast s ".txt" hc (by decide)
  rcases h with h | h
  · have hj := pyEndswith_getLast s ".json" h (by decide)
    rw [htxt] at hj
    exact absurd hj (by decide)
  · have hj := pyEndswith_getLast s ".jsonc" h (by decide)
    rw [htxt] at hj
    exact absurd hj (by decide)

/-- Claim C2: a `.json`/`.jsonc` regular-file child whose JSON-parse
attempt fails never raises: the record is produced with type `path` and
content the base name of the scanned directory joined with the child name,
and (being an `.ok` result) the scan continues with the next child. -/
theorem json_parse_failure_yields_path (loads : String → Option JVal)
    (cwd name : String) (readResult : Except String String)
    (hjson : pyEndswith name ".json" = true ∨ pyEndswith name ".jsonc" = true)
    (hfail : loads (pathJoin cwd name) = none) :
    classifyChild loads cwd ⟨name, .file readResult⟩ =
      .ok [(key1, .str name), (key4, .str (basename cwd)),
           (key2, .str (pathJoin (basename cwd) name)),
           (key3, .str "path")] := by
  have htxt := not_endswith_txt_of_json name hjson
  rw [classifyChild]
  simp only [htxt, Bool.false_eq_true, if_false]
  have hj : (pyEndswith name ".json" || pyEndswith name ".jsonc") = true := by
    rcases hjson with h | h <;> simp [h]
  simp only [hj, if_true, hfail]

/-- Witness for claim C2 at a concrete input. -/
theorem json_parse_failure_yields_path_witness :
    ((pyEndswith "bad.json" ".json" = true ∨
        pyEndswith "bad.json" ".jsonc" = true) ∧
      (fun _ : String => (none : Option JVal)) (pathJoin "/tmp/d" "bad.json") =
        none) ∧
    classifyChild (fun _ => none) "/tmp/d" ⟨"bad.json", .file (.ok "not-valid")⟩ =
      .ok [(key1, .str "bad.json"), (key4, .str "d"),
           (key2, .str "d/bad.json"), (key3, .str "path")] :=
  ⟨⟨Or.inl (by decide), rfl⟩,
    json_parse_failure_yields_path (fun _ => none) "/tmp/d" "bad.json"
      (.ok "not-valid") (Or.inl (by decide)) rfl⟩

/-- Claim C7: a regular-file child ending in `.txt` (whose read succeeds)
yields a record with type `file` and content the file text split into
lines on the newline character. -/
theorem txt_file_yields_lines (loads : String → Option JVal)
    (cwd name content : String)
    (htxt : pyEndswith name ".txt" = true) :
    classifyChild loads cwd ⟨name, .file (.ok content)⟩ =
      .ok [(key1, .str name), (key4, .str (basename cwd)),
           (key2, .arr ((splitNl content.data).map (fun l => .str (String.mk l)))),
           (key3, .str "file")] := by
  rw [classifyChild]
  simp only [htxt, if_true]

/-- Witness for claim C7: a `.txt` file containing `"a\nb\nc"` yields
content `["a", "b", "c"]`. -/
theorem txt_file_yields_lines_witness :
    pyEndswith "a.txt" ".txt" = true ∧
    classifyChild (fun _ => none) "/tmp/d" ⟨"a.txt", .file (.ok "a\nb\nc")⟩ =
      .ok [(key1, .str "a.txt"), (key4, .str "d"),
           (key2, .arr [.str "a", .str "b", .str "c"]),
           (key3, .str "file")] :=
  ⟨by decide,
    by
      rw [txt_file_yields_lines (fun _ => none) "/tmp/d" "a.txt" "a\nb\nc"
        (by decide)]
      rfl⟩

/-- Counterexample to claim C8 as stated: on a child that is neither a
directory nor a regular file, the code writes the type tag `"Unknown"`
(capital U), not the enum value `"unknown"` claimed by the spec. -/
theorem other_child_not_lowercase_unknown :
    classifyChild (fun _ => none) "/tmp/d" ⟨"weird", .other⟩ =
      .ok [(key1, .str "weird"), (key4, .str "d"),
           (key2, .str ""), (key3, .str "Unknown")] ∧
    ("Unknown" : String) ≠ "unknown" :=
  ⟨rfl, by decide⟩

/-- Claim C8 (amended): a child that is neither a directory nor a regular
file yields a record whose type field is the string `"Unknown"`
(capitalized, unlike the lowercase tags of the other branches) and whose
content is the empty string. -/
theorem other_child_yields_unknown (loads : String → Option JVal)
    (cwd name : String) :
    classifyChild loads cwd ⟨name, .other⟩ =
      .ok [(key1, .str name), (key4, .str (basename cwd)),
           (key2, .str ""), (key3, .str "Unknown")] := rfl

/-- Claim C9: in the `.json`/`.jsonc` branch, the parse attempt is applied
to the constructed pathname string (the scanned directory joined with the
child name), never to the file content: the record is independent of the
read outcome, and type `json` is assigned exactly when the pathname string
itself parses as JSON (otherwise the `path` fallback record is built). -/
theorem json_branch_parses_pathname (loads : String → Option JVal)
    (cwd name : String) (readResult : Except String String)
    (hjson : pyEndswith name ".json" = true ∨ pyEndswith name ".jsonc" = true) :
    (∀ r₁ r₂ : Except String String,
      classifyChild loads cwd ⟨name, .file r₁⟩ =
        classifyChild loads cwd ⟨name, .file r₂⟩) ∧
    (∀ v, loads (pathJoin cwd name) = some v →
      classifyChild loads cwd ⟨name, .file readResult⟩ =
        .ok [(key1, .str name), (key4, .str (basename cwd)),
             (key2, v), (key3, .str "json")]) ∧
    (loads (pathJoin cwd name) = none →
      classifyChild loads cwd ⟨name, .file readResult⟩ =
        .ok [(key1, .str name), (key4, .str (basename cwd)),
             (key2, .str (pathJoin (basename cwd) name)),
             (key3, .str "path")]) := by
  have htxt := not_endswith_txt_of_json name hjson
  have hj : (pyEndswith name ".json" || pyEndswith name ".jsonc") = true := by
    rcases hjson with h | h <;> simp [h]
  refine ⟨?_, ?_, ?_⟩
  · intro r₁ r₂
    rw [classifyChild, classifyChild]
    simp only [htxt, Bool.false_eq_true, if_false, hj, if_true]
  · intro v hv
    rw [classifyChild]
    simp only [htxt, Bool.false_eq_true, if_false, hj, if_true, hv]
  · intro hv
    rw [classifyChild]
    simp only [htxt, Bool.false_eq_true, if_false, hj, if_true, hv]

/-- Witness for claim C9 at a concrete input: the read outcome is an
error, yet the record is built from the (here JSON-parseable) pathname. -/
theorem json_branch_parses_pathname_witness :
    (pyEndswith "x.json" ".json" = true ∨
      pyEndswith "x.json" ".jsonc" = true) ∧
    classifyChild
        (fun s => if s = "/tmp/d/x.json" then some (.num 3) else none)
        "/tmp/d" ⟨"x.json", .file (.error "unreadable")⟩ =
      .ok [(key1, .str "x.json"), (key4, .str "d"),
           (key2, .num 3), (key3, .str "json")] :=
  ⟨Or.inl (by decide),
    (json_branch_parses_pathname
        (fun s => if s = "/tmp/d/x.json" then some (.num 3) else none)
        "/tmp/d" "x.json" (.error "unreadable")
        (Or.inl (by decide))).2.1 (.num 3) (by rfl)⟩

/-! ### The scan, child by child -/

theorem isReservedName_eq_true (s : String) :
    isReservedName s = true ↔ (s = json_name ∨ s = minified_json_name) := by
  rw [isReservedName]
  simp

theorem gather_content_ok_iff (loads : String → Option JVal) (cwd : String)
    (children : List FSChild) (es : List Entry) :
    gather_content loads cwd children = .ok es ↔
      List.Forall₂ (fun c e => classifyChild loads cwd c = .ok e)
        (children.filter (fun c => !isReservedName c.name)) es := by
  induction children generalizing es with
  | nil =>
    rw [gather_content]
    simp only [List.filter_nil, List.forall₂_nil_left_iff]
    constructor
    · intro h
      injection h with h
      exact h.symm
    · intro h
      rw [h]
  | cons c rest ih =>
    rw [gather_content, List.filter_cons]
    by_cases hres : c.name = json_name ∨ c.name = minified_json_name
    · have hb : (!isReservedName c.name) = false := by
        rw [(isReservedName_eq_true c.name).mpr hres]
        rfl
      rw [if_pos hres, hb, if_neg (by simp)]
      exact ih es
    · have hb : (!isReservedName c.name) = true := by
        rw [Bool.not_eq_true']
        rw [← Bool.not_eq_true, isReservedName_eq_true]
        exact hres
      rw [if_neg hres, hb, if_pos rfl]
      cases hcl : classifyChild loads cwd c with
      | error e =>
        simp only [List.forall₂_cons_left_iff, hcl]
        constructor
        · intro h; cases h
        · rintro ⟨b, l, hb', _, _⟩
          cases hb'
      | ok ent =>
        cases hg : gather_content loads cwd rest with
        | error e =>
          simp only [List.forall₂_cons_left_iff, hcl]
          constructor
          · intro h; cases h
          · rintro ⟨b, l, _, hf, _⟩
            have := (ih l).mpr hf
            rw [hg] at this
            cases this
        | ok es' =>
          simp only [List.forall₂_cons_left_iff, hcl]
          constructor
          · intro h
            injection h with h
            exact ⟨ent, es', rfl, (ih es').mp hg, h.symm⟩
          · rintro ⟨b, l, hb', hf, hes⟩
            injection hb' with hb'
            have := (ih l).mpr hf
            rw [hg] at this
            injection this with h2
            rw [hes, ← hb', h2]
  -- proved by the case analysis above

/-- Claim C1: a successful scan produces exactly one record per direct
child in listing order, the children named `files.json` or
`files.min.json` being skipped; this characterization holds for any child
count, including the empty listing (which yields the empty record list). -/
theorem gather_one_entry_per_child (loads : String → Option JVal)
    (cwd : String) (children : List FSChild) (es : List Entry) :
    gather_content loads cwd children = .ok es ↔
      List.Forall₂ (fun c e => classifyChild loads cwd c = .ok e)
        (children.filter (fun c => !isReservedName c.name)) es :=
  gather_content_ok_iff loads cwd children es

theorem classifyChild_keys (loads : String → Option JVal) (cwd : String)
    (c : FSChild) (e : Entry) (h : classifyChild loads cwd c = .ok e) :
    e.map Prod.fst = ["fileName", "fileParentDirectory",
                      "fileContent", "fileType"] := by
  rcases c with ⟨name, node⟩
  cases node with
  | dir =>
    rw [classifyChild] at h
    injection h with h
    rw [← h]
    rfl
  | file readResult =>
    rw [classifyChild] at h
    dsimp only at h
    split at h
    · cases readResult with
      | ok content =>
        injection h with h
        rw [← h]
        rfl
      | error e' => cases h
    split at h
    · cases hv : loads (pathJoin cwd name) with
      | some v =>
        rw [hv] at h
        injection h with h
        rw [← h]
        rfl
      | none =>
        rw [hv] at h
        injection h with h
        rw [← h]
        rfl
    · injection h with h
      rw [← h]
      rfl
  | other =>
    rw [classifyChild] at h
    injection h with h
    rw [← h]
    rfl

/-- Claim C10: every record of a successful scan, whatever classification
branch produced it, carries exactly the four keys `fileName`,
`fileParentDirectory`, `fileContent` and `fileType`, each set exactly
once (the keys listed here in their insertion order). -/
theorem gathered_entries_have_four_keys (loads : String → Option JVal)
    (cwd : String) (children : List FSChild) (es : List Entry)
    (h : gather_content loads cwd children = .ok es) :
    ∀ e ∈ es, e.map Prod.fst = ["fileName", "fileParentDirectory",
                                "fileContent", "fileType"] := by
  have hf := (gather_content_ok_iff loads cwd children es).mp h
  generalize hl : children.filter (fun c => !isReservedName c.name) = l at hf
  clear hl h
  induction hf with
  | nil => intro e he; cases he
  | cons hR _ ih =>
    intro e he
    rcases List.mem_cons.mp he with he | he
    · subst he
      exact classifyChild_keys _ _ _ _ hR
    · exact ih e he

/-- Witness for claim C10 at a concrete listing exercising several
branches. -/
theorem gathered_entries_have_four_keys_witness :
    gather_content (fun _ => none) "/tmp/d"
        [⟨"sub", .dir⟩, ⟨"a.txt", .file (.ok "hello\nworld")⟩,
         ⟨"files.json", .other⟩, ⟨"bad.json", .file (.ok "x")⟩,
         ⟨"dev", .other⟩] =
      .ok [[(key1, .str "sub"), (key4, .str "d"),
            (key2, .str ""), (key3, .str "dir")],
           [(key1, .str "a.txt"), (key4, .str "d"),
            (key2, .arr [.str "hello", .str "world"]), (key3, .str "file")],
           [(key1, .str "bad.json"), (key4, .str "d"),
            (key2, .str "d/bad.json"), (key3, .str "path")],
           [(key1, .str "dev"), (key4, .str "d"),
            (key2, .str ""), (key3, .str "Unknown")]] ∧
    ∀ e ∈ [[(key1, JVal.str "sub"), (key4, .str "d"),
            (key2, .str ""), (key3, .str "dir")],
           [(key1, .str "a.txt"), (key4, .str "d"),
            (key2, .arr [.str "hello", .str "world"]), (key3, .str "file")],
           [(key1, .str "bad.json"), (key4, .str "d"),
            (key2, .str "d/bad.json"), (key3, .str "path")],
           [(key1, .str "dev"), (key4, .str "d"),
            (key2, .str ""), (key3, .str "Unknown")]],
      e.map Prod.fst = ["fileName", "fileParentDirectory",
                        "fileContent", "fileType"] :=
  ⟨by rfl,
    gathered_entries_have_four_keys (fun _ => none) "/tmp/d"
      [⟨"sub", .dir⟩, ⟨"a.txt", .file (.ok "hello\nworld")⟩,
       ⟨"files.json", .other⟩, ⟨"bad.json", .file (.ok "x")⟩,
       ⟨"dev", .other⟩] _ (by rfl)⟩

/-! ### The call boundary -/

/-- Claim C3: an exception raised during the scan (listing or reading a
child) is caught by the call boundary's handler — the call reports it (a
print, not modelled beyond the absence of `raised`) and returns normally —
and, the failure preceding serialization, neither output file is
written. -/
theorem scan_failure_caught (w : World) (cwd e : String)
    (hch : w.chdirOk = true) (hfail : gatherResult w cwd = .error e) :
    (call w cwd).raised = false ∧ (call w cwd).written = [] := by
  rw [call, hch]
  simp only [hfail]
  exact ⟨rfl, rfl⟩

/-- Witness for claim C3: a world whose directory listing raises. -/
theorem scan_failure_caught_witness :
    ((World.mk (fun _ => none) "/home/user" true (.error "boom") true
        true).chdirOk = true ∧
      gatherResult
          ⟨fun _ => none, "/home/user", true, .error "boom", true, true⟩
          "/tmp/d" = .error "boom") ∧
    ((call ⟨fun _ => none, "/home/user", true, .error "boom", true, true⟩
        "/tmp/d").raised = false ∧
      (call ⟨fun _ => none, "/home/user", true, .error "boom", true, true⟩
        "/tmp/d").written = []) :=
  ⟨⟨rfl, rfl⟩,
    scan_failure_caught
      ⟨fun _ => none, "/home/user", true, .error "boom", true, true⟩
      "/tmp/d" "boom" rfl rfl⟩

/-- Counterexample to claim C4 as stated: a failing `dump_json` write does
NOT propagate out of `__call__` — the surrounding `try/except Exception`
catches it like any other exception, so the call returns normally
(`raised = false` in a world whose pretty-dump write fails). -/
theorem dump_write_failure_not_propagated :
    (World.mk (fun _ => none) "/home/user" true (.ok [⟨"sub", .dir⟩]) false
        true).dumpOk = false ∧
    (call ⟨fun _ => none, "/home/user", true, .ok [⟨"sub", .dir⟩], false,
        true⟩ "/tmp/d").raised = false :=
  ⟨rfl, rfl⟩

/-- Claim C4 (amended): a failure of either dump write is caught by the
same call-boundary handler as every other exception: the call returns
normally without propagating the error to its caller. -/
theorem dump_write_failure_caught (w : World) (cwd : String)
    (es : List Entry) (hch : w.chdirOk = true)
    (hg : gatherResult w cwd = .ok es)
    (hd : w.dumpOk = false ∨ w.dumpMinOk = false) :
    (call w cwd).raised = false := by
  rw [call, hch, if_neg (show ¬(true = false) by decide)]
  simp only [hg]
  split
  · rfl
  split
  · rfl
  · rfl

/-- Witness for the amended claim C4 at a concrete world whose
pretty-dump write fails. -/
theorem dump_write_failure_caught_witness :
    ((World.mk (fun _ => none) "/home/user" true (.ok [⟨"sub", .dir⟩])
        false true).chdirOk = true ∧
      gatherResult
          ⟨fun _ => none, "/home/user", true, .ok [⟨"sub", .dir⟩], false,
            true⟩ "/tmp/d" =
        .ok [[(key1, .str "sub"), (key4, .str "d"),
              (key2, .str ""), (key3, .str "dir")]] ∧
      ((World.mk (fun _ => none) "/home/user" true (.ok [⟨"sub", .dir⟩])
          false true).dumpOk = false ∨
        (World.mk (fun _ => none) "/home/user" true (.ok [⟨"sub", .dir⟩])
          false true).dumpMinOk = false)) ∧
    (call ⟨fun _ => none, "/home/user", true, .ok [⟨"sub", .dir⟩], false,
        true⟩ "/tmp/d").raised = false :=
  ⟨⟨rfl, rfl, Or.inl rfl⟩,
    dump_write_failure_caught
      ⟨fun _ => none, "/home/user", true, .ok [⟨"sub", .dir⟩], false, true⟩
      "/tmp/d"
      [[(key1, .str "sub"), (key4, .str "d"),
        (key2, .str ""), (key3, .str "dir")]]
      rfl rfl (Or.inl rfl)⟩

/-- Claim C5: whatever happens inside the call — success, a scan failure,
a dump failure, or even a failing initial `chdir` (which then never
changed directory) — the process-wide working directory observed after the
call equals the one observed before it: the `finally` block restores
it.  (The model takes the restoring `chdir` back to the remembered
original directory to succeed.) -/
theorem cwd_restored_after_call (w : World) (cwd : String) :
    (call w cwd).endCwd = w.startCwd := by
  rw [call]
  split
  · rfl
  split
  · rfl
  split
  · rfl
  split
  · rfl
  · rfl

/-- Claim C6: on any record list, the pretty text (4-space indent, sorted
keys, ASCII-escaped, `" ,"` item separator, `": "` key separator) and the
minified text (no indent, `","`/`":"` separators, sorted keys) carry the
same JSON value: erasing the whitespace that JSON parsing ignores (the
whitespace outside string literals — which is where the non-standard
separator's extra space lives) turns the pretty text into exactly the
minified text, while the minified text is already its own stripped image:
the two texts have identical token streams and so parse to equal values —
same keys, same values, same array order. -/
theorem pretty_and_minified_same_value (entries : List Entry) :
    stripJsonWS (dump_json entries) = dump_minified_json entries ∧
    stripJsonWS (dump_minified_json entries) = dump_minified_json entries := by
  constructor
  · rw [dump_json, dump_minified_json, stripJsonWS]
    have h := stripOK_of_jval (sortJ (entriesToJVal entries)) 0 []
    rw [List.append_nil, stripAux_nil, List.append_nil] at h
    exact congrArg String.mk h
  · rw [dump_minified_json, stripJsonWS]
    have h := stripOKMin_of_jval (sortJ (entriesToJVal entries)) []
    rw [List.append_nil, stripAux_nil, List.append_nil] at h
    exact congrArg String.mk h

end DirToJson
